import Mathlib

/-!
# OAuth 1.0a request signing of `main.go`

A shallow embedding of the signing code of `main.go` (`generateSignature`,
`generateOAuthHeader`, the path handling of `deleteTweet`) together with the Go
standard-library functions it calls (`url.QueryEscape`, `sort.Strings`,
`strings.Split`, `strings.TrimSuffix`, `fmt.Sprintf("%d")`, `crypto/sha1`,
`crypto/hmac`, `encoding/base64`).

Go strings are byte sequences, so a string is a list of bytes.  A Go map is an
association list with pairwise distinct keys; the order in which a `range`
statement enumerates a map is not fixed by the language, so every `range` takes
an enumeration order as an explicit argument.
-/

namespace W6Twitter

/-! ## Strings -/

/-- A Go `byte`. -/
abbrev Byte := Fin 256

/-- A Go `string`: a sequence of bytes. -/
abbrev Str := List Byte

/-- The bytes of an ASCII literal. -/
def ascii (s : String) : Str := s.toList.map (fun c => Fin.ofNat c.toNat)

/-- Go `s[i]` for an index within the string. -/
def strAt (s : Str) (i : Nat) : Byte := s.getD i 0

/-! ## `net/url`: `QueryEscape` -/

/-- The table `upperhex` of `net/url`. -/
def upperhex : Str := ascii "0123456789ABCDEF"

/-- Go `shouldEscape(c, encodeQueryComponent)`: letters and digits are kept,
so are `-`, `_`, `.`, `~`; every other byte is to be escaped. -/
def shouldEscape (c : Byte) : Bool :=
  if (97 ≤ c.val && c.val ≤ 122) || (65 ≤ c.val && c.val ≤ 90) || (48 ≤ c.val && c.val ≤ 57) then
    false
  else if c.val = 45 || c.val = 95 || c.val = 46 || c.val = 126 then
    false
  else
    true

/-- The final loop of Go `escape` in mode `encodeQueryComponent`: a space is
written as `+`, a byte to be escaped as `%` and two digits of `upperhex`, every
other byte as itself. -/
def escapeLoop : Str → Str
  | [] => []
  | c :: t =>
    if c.val = 32 then
      (43 : Byte) :: escapeLoop t
    else if shouldEscape c then
      (37 : Byte) :: strAt upperhex (c.val >>> 4) :: strAt upperhex (c.val &&& 15) :: escapeLoop t
    else
      c :: escapeLoop t

/-- Go `escape(s, encodeQueryComponent)`: count the spaces and the other bytes
to escape; return `s` itself when there is none; when only spaces are to be
escaped copy `s` with each space replaced by `+`; otherwise run the full loop. -/
def escape (s : Str) : Str :=
  let spaceCount := (s.filter (fun c => shouldEscape c && decide (c.val = 32))).length
  let hexCount := (s.filter (fun c => shouldEscape c && !decide (c.val = 32))).length
  if spaceCount = 0 ∧ hexCount = 0 then s
  else if hexCount = 0 then s.map (fun c => if c.val = 32 then (43 : Byte) else c)
  else escapeLoop s

/-- Go `url.QueryEscape`. -/
def QueryEscape (s : Str) : Str := escape s

/-- Go `ishex`. -/
def ishex (c : Byte) : Bool :=
  (48 ≤ c.val && c.val ≤ 57) || (97 ≤ c.val && c.val ≤ 102) || (65 ≤ c.val && c.val ≤ 70)

/-- Go `unhex`. -/
def unhex (c : Byte) : Nat :=
  if 48 ≤ c.val ∧ c.val ≤ 57 then c.val - 48
  else if 97 ≤ c.val ∧ c.val ≤ 102 then c.val - 97 + 10
  else if 65 ≤ c.val ∧ c.val ≤ 70 then c.val - 65 + 10
  else 0

/-- RFC 3986 percent-decoding as the specification words it: each `%XX` is
replaced by the byte `XX`, every other character is kept as it is. -/
def pctDecode : Str → Str
  | [] => []
  | [c] => [c]
  | [c, d] => [c, d]
  | c :: h :: l :: r =>
    if c.val = 37 ∧ ishex h = true ∧ ishex l = true then
      Fin.ofNat (unhex h * 16 + unhex l) :: pctDecode r
    else
      c :: pctDecode (h :: l :: r)

/-- Go `a < b` on strings: byte-wise lexicographic order, a proper prefix being
smaller. -/
def strLess : Str → Str → Bool
  | [], [] => false
  | [], _ :: _ => true
  | _ :: _, [] => false
  | a :: s, b :: t =>
    if a.val < b.val then true else if b.val < a.val then false else strLess s t

/-- The order `sort.Strings` sorts by: `a` may stand before `b` when `b < a`
does not hold. -/
def strLE (a b : Str) : Prop := strLess b a = false

instance : DecidableRel strLE := fun a b => inferInstanceAs (Decidable (strLess b a = false))

/-- Go `sort.Strings`: the list in increasing order.  The result of sorting by
a total order does not depend on the sorting algorithm (`sortStrings_unique`),
so insertion sort stands for the library's algorithm. -/
def sortStrings (keys : List Str) : List Str := List.insertionSort strLE keys

/-! ## Maps -/

/-- A Go `map[string]string`: its entries, with pairwise distinct keys. -/
abbrev GoMap := List (Str × Str)

/-- The keys of a map. -/
def GoMap.keys (m : GoMap) : List Str := m.map Prod.fst

/-- Go `m[k]`: the value stored under `k`, the empty string when there is none. -/
def GoMap.get (m : GoMap) (k : Str) : Str :=
  match m.find? (fun p => p.1 == k) with
  | some p => p.2
  | none => []

/-- Go `m[k] = v`: replace the value of an existing key, else add the entry. -/
def GoMap.set (m : GoMap) (k v : Str) : GoMap :=
  if m.any (fun p => p.1 == k) then m.map (fun p => if p.1 == k then (k, v) else p)
  else m ++ [(k, v)]

/-- An enumeration order of a `range` statement over a map: some permutation of
the entries of the map. -/
structure Order where
  /-- The entries in the order in which they are visited. -/
  enum : GoMap → GoMap
  /-- Every entry is visited exactly once. -/
  perm : ∀ m, (enum m).Perm m

/-- The order that visits the entries as stored. -/
def Order.stored : Order := ⟨fun m => m, fun m => List.Perm.refl m⟩

/-- The order that visits the entries last to first. -/
def Order.reversed : Order := ⟨fun m => m.reverse, fun m => List.reverse_perm m⟩

/-! ## `crypto/sha1`, `crypto/hmac`, `encoding/base64` -/

/-- Go `bits.RotateLeft32` on a 32-bit word. -/
def rotl32 (x k : Nat) : Nat := ((x <<< k) ||| (x >>> (32 - k))) % 2 ^ 32

/-- The padding `crypto/sha1` appends to a message of `len` bytes: `0x80`, zero
bytes up to 56 modulo 64, and the length in bits as 8 big-endian bytes. -/
def sha1Pad (len : Nat) : List Nat :=
  let t := if len % 64 < 56 then 56 - len % 64 else 64 + 56 - len % 64
  128 :: List.replicate (t - 1) 0 ++
    (List.range 8).map (fun i => ((len * 8) % 2 ^ 64) >>> (8 * (7 - i)) % 256)

/-- The 16 big-endian words of a 64-byte block. -/
def sha1Words : Nat → List Nat → List Nat
  | 0, _ => []
  | n + 1, a :: b :: c :: d :: rest =>
    (a <<< 24 ||| b <<< 16 ||| c <<< 8 ||| d) :: sha1Words n rest
  | _ + 1, _ => []

/-- The message schedule extended from 16 to 80 words. -/
def sha1Schedule (w : List Nat) : List Nat :=
  (List.range 64).foldl
    (fun w i =>
      w ++ [rotl32 (w.getD (i + 13) 0 ^^^ w.getD (i + 8) 0 ^^^ w.getD (i + 2) 0 ^^^ w.getD i 0) 1])
    w

/-- One round of the compression function, `i` the round number. -/
def sha1Round (w : List Nat) (s : Nat × Nat × Nat × Nat × Nat) (i : Nat) :
    Nat × Nat × Nat × Nat × Nat :=
  let (a, b, c, d, e) := s
  let f :=
    if i < 20 then (b &&& c) ||| ((b ^^^ 4294967295) &&& d)
    else if i < 40 then b ^^^ c ^^^ d
    else if i < 60 then ((b ||| c) &&& d) ||| (b &&& c)
    else b ^^^ c ^^^ d
  let k :=
    if i < 20 then 1518500249
    else if i < 40 then 1859775393
    else if i < 60 then 2400959708
    else 3395469782
  ((rotl32 a 5 + f + e + w.getD i 0 + k) % 2 ^ 32, a, rotl32 b 30, c, d)

/-- Go `blockGeneric` on one 64-byte block. -/
def sha1Block (h : Nat × Nat × Nat × Nat × Nat) (block : List Nat) :
    Nat × Nat × Nat × Nat × Nat :=
  let w := sha1Schedule (sha1Words 16 block)
  let (a, b, c, d, e) := (List.range 80).foldl (sha1Round w) h
  let (h0, h1, h2, h3, h4) := h
  ((h0 + a) % 2 ^ 32, (h1 + b) % 2 ^ 32, (h2 + c) % 2 ^ 32, (h3 + d) % 2 ^ 32,
    (h4 + e) % 2 ^ 32)

/-- The blocks of a padded message, `n` of them. -/
def sha1Blocks : Nat → Nat × Nat × Nat × Nat × Nat → List Nat → Nat × Nat × Nat × Nat × Nat
  | 0, h, _ => h
  | n + 1, h, p => sha1Blocks n (sha1Block h (p.take 64)) (p.drop 64)

/-- The 4 big-endian bytes of a 32-bit word. -/
def be32 (x : Nat) : Str :=
  [Fin.ofNat (x >>> 24), Fin.ofNat (x >>> 16), Fin.ofNat (x >>> 8), Fin.ofNat x]

/-- Go `sha1.Sum`: the 20-byte SHA-1 digest of a message. -/
def sha1 (msg : Str) : Str :=
  let p := msg.map Fin.val ++ sha1Pad msg.length
  let (h0, h1, h2, h3, h4) :=
    sha1Blocks (p.length / 64) (1732584193, 4023233417, 2562383102, 271733878, 3285377520) p
  be32 h0 ++ be32 h1 ++ be32 h2 ++ be32 h3 ++ be32 h4

/-- Go `hmac.New(sha1.New, key)` followed by `Write(msg)` and `Sum(nil)`: a key
longer than the 64-byte block is hashed first, the key is zero-padded to the
block size, and the digest is `H(opad ++ H(ipad ++ msg))`. -/
def hmacSha1 (key msg : Str) : Str :=
  let k := if key.length > 64 then sha1 key else key
  let k := k ++ List.replicate (64 - k.length) (0 : Byte)
  let ipad : Str := k.map (fun b => Fin.ofNat (b.val ^^^ 54))
  let opad : Str := k.map (fun b => Fin.ofNat (b.val ^^^ 92))
  sha1 (opad ++ sha1 (ipad ++ msg))

/-- The alphabet of `base64.StdEncoding`. -/
def encodeStd : Str := ascii "ABCDEFGHIJKLMNOPQRSTUVWXYZabcdefghijklmnopqrstuvwxyz0123456789+/"

/-- Go `base64.StdEncoding.EncodeToString`: 3 bytes give 4 characters, a last
group of 1 or 2 bytes is padded with `=`. -/
def base64Std : Str → Str
  | [] => []
  | [a] =>
    let v := a.val <<< 16
    [strAt encodeStd (v >>> 18 &&& 63), strAt encodeStd (v >>> 12 &&& 63), 61, 61]
  | [a, b] =>
    let v := a.val <<< 16 ||| b.val <<< 8
    [strAt encodeStd (v >>> 18 &&& 63), strAt encodeStd (v >>> 12 &&& 63),
      strAt encodeStd (v >>> 6 &&& 63), 61]
  | a :: b :: c :: rest =>
    let v := a.val <<< 16 ||| b.val <<< 8 ||| c.val
    strAt encodeStd (v >>> 18 &&& 63) :: strAt encodeStd (v >>> 12 &&& 63) ::
      strAt encodeStd (v >>> 6 &&& 63) :: strAt encodeStd (v &&& 63) :: base64Std rest

/-! ## `fmt.Sprintf("%d", ...)`, `strings.TrimSuffix`, `strings.Split` -/

/-- The digit loop of Go `strconv` integer formatting: the decimal digits of
`n` are put in front of `acc`, the last digit first. -/
def fmtDigits : Nat → Nat → Str → Str
  | 0, _, acc => acc
  | fuel + 1, n, acc =>
    if n < 10 then Fin.ofNat (48 + n) :: acc
    else fmtDigits fuel (n / 10) (Fin.ofNat (48 + n % 10) :: acc)

/-- Go `fmt.Sprintf("%d", x)` for an `int64`: the decimal rendering, with a
leading `-` for a negative number. -/
def fmtD (x : Int) : Str :=
  if x < 0 then (45 : Byte) :: fmtDigits (x.natAbs + 1) x.natAbs []
  else fmtDigits (x.natAbs + 1) x.natAbs []

/-- The number a string of decimal digits stands for. -/
def digitsValue (s : Str) : Nat := s.foldl (fun a c => a * 10 + (c.val - 48)) 0

/-- Go `strings.HasSuffix`. -/
def HasSuffix (s suffix : Str) : Bool :=
  decide (suffix.length ≤ s.length) && decide (s.drop (s.length - suffix.length) = suffix)

/-- Go `strings.TrimSuffix`: `s` without the given suffix, `s` itself when it
does not end with it. -/
def TrimSuffix (s suffix : Str) : Str :=
  if HasSuffix s suffix then s.take (s.length - suffix.length) else s

/-- Go `strings.Index` for a non-empty separator: the position of its first
occurrence. -/
def Index : Str → Str → Option Nat
  | [], _ => none
  | c :: t, sep =>
    if sep.isPrefixOf (c :: t) then some 0 else (Index t sep).map (fun i => i + 1)

/-- Go `strings.Count` for a non-empty separator: the number of non-overlapping
occurrences, found left to right. -/
def Count : Nat → Str → Str → Nat
  | 0, _, _ => 0
  | fuel + 1, s, sep =>
    match Index s sep with
    | none => 0
    | some i => Count fuel (s.drop (i + sep.length)) sep + 1

/-- The loop of Go `genSplit`: at most `n` times cut the string at the first
occurrence of the separator; what remains is the last piece. -/
def genSplit : Nat → Str → Str → List Str
  | 0, s, _ => [s]
  | n + 1, s, sep =>
    match Index s sep with
    | none => [s]
    | some m => s.take m :: genSplit n (s.drop (m + sep.length)) sep

/-- Go `strings.Split(s, sep)` for a non-empty separator: `Count(s, sep) + 1`
pieces. -/
def Split (s sep : Str) : List Str := genSplit (Count (s.length + 1) s sep) s sep

/-! ## `main.go` -/

/-- The package-level variables of `main.go`. -/
structure Globals where
  apiKey : Str
  apiSecretKey : Str
  accessToken : Str
  accessTokenSecret : Str
  baseURI : Str

/-- The loop `for i, key := range keys` of `generateSignature`: each key adds
`QueryEscape(key) + "=" + QueryEscape(params[key])` to `paramStr`, followed by
`&` when `i < len(keys)-1`. -/
def paramLoop (params : GoMap) (len : Nat) : Nat → List Str → Str → Str
  | _, [], paramStr => paramStr
  | i, key :: rest, paramStr =>
    let paramStr := paramStr ++ (QueryEscape key ++ ascii "=" ++ QueryEscape (params.get key))
    paramLoop params len (i + 1) rest
      (if (i : Int) < (len : Int) - 1 then paramStr ++ ascii "&" else paramStr)

/-- Step 1 of `generateSignature`: collect the keys in the order `range` gives
them, sort them, and build `paramStr`. -/
def paramStr (params : GoMap) (ord : Order) : Str :=
  let keys := sortStrings (ord.enum params).keys
  paramLoop params keys.length 0 keys []

/-- Step 2 of `generateSignature`: `signatureBaseStr`. -/
def signatureBaseStr (method baseURL : Str) (params : GoMap) (ord : Order) : Str :=
  method ++ ascii "&" ++ QueryEscape baseURL ++ ascii "&" ++ QueryEscape (paramStr params ord)

/-- Step 3 of `generateSignature`: `signingKey`. -/
def signingKey (apiSecretKey tokenSecret : Str) : Str :=
  QueryEscape apiSecretKey ++ ascii "&" ++ QueryEscape tokenSecret

/-- The function `generateSignature` of `main.go`; `ord` is the order in which
`range params` enumerates the map. -/
def generateSignature (g : Globals) (method baseURL : Str) (params : GoMap) (ord : Order)
    (tokenSecret : Str) : Str :=
  base64Std (hmacSha1 (signingKey g.apiSecretKey tokenSecret)
    (signatureBaseStr method baseURL params ord))

/-- The map objects of a run, addressed by their position: a map variable holds
a reference, and two variables may hold the same one. -/
abbrev Heap := List GoMap

/-- A new map object with the given entries, and its reference. -/
def Heap.alloc (h : Heap) (m : GoMap) : Heap × Nat := (h ++ [m], h.length)

/-- The entries of the map object behind a reference. -/
def Heap.read (h : Heap) (r : Nat) : GoMap := h.getD r []

/-- The assignment `m[k] = v` through a reference. -/
def Heap.write (h : Heap) (r : Nat) (k v : Str) : Heap := h.set r ((h.read r).set k v)

/-- What a run of `generateOAuthHeader` does, step by step. -/
structure HeaderRun where
  /-- The reference held by `oauthParams`. -/
  oauthParams : Nat
  /-- The reference held by `allParams`. -/
  allParams : Nat
  /-- The entries of the map handed to `generateSignature`, at the call. -/
  signed : GoMap
  /-- The entries of `oauthParams` at the call of `generateSignature`. -/
  oauthAtCall : GoMap
  /-- The value returned by `generateSignature`. -/
  signature : Str
  /-- The map objects when the function returns. -/
  heap : Heap
  /-- The returned header. -/
  header : Str

/-- The text of one parameter in the header: `key="value"`, both escaped. -/
def headerItem (kv : Str × Str) : Str :=
  QueryEscape kv.1 ++ [61, 34] ++ QueryEscape kv.2 ++ [34]

/-- One iteration of the header loop: `header += fmt.Sprintf("%s=\"%s\", ", ...)`
with both arguments passed through `url.QueryEscape`. -/
def headerStep (header : Str) (kv : Str × Str) : Str :=
  header ++ (QueryEscape kv.1 ++ [61, 34] ++ QueryEscape kv.2 ++ [34, 44, 32])

/-- The map literal that initialises `oauthParams` in `generateOAuthHeader`. -/
def oauthParamsLit (g : Globals) (nanos secs : Int) : GoMap :=
  [(ascii "oauth_consumer_key", g.apiKey),
   (ascii "oauth_nonce", fmtD nanos),
   (ascii "oauth_signature_method", ascii "HMAC-SHA1"),
   (ascii "oauth_timestamp", fmtD secs),
   (ascii "oauth_token", g.accessToken),
   (ascii "oauth_version", ascii "1.0")]

/-- The function `generateOAuthHeader` of `main.go`, with the map objects made
explicit.  `nanos` and `secs` are the readings `time.Now().UnixNano()` and
`time.Now().Unix()`; `copyOrd`, `signOrd` and `headerOrd` are the enumeration
orders of the three `range` statements that run. -/
def generateOAuthHeaderRun (g : Globals) (nanos secs : Int) (copyOrd signOrd headerOrd : Order)
    (method baseURL : Str) : HeaderRun :=
  let (h1, oauthParams) := Heap.alloc [] (oauthParamsLit g nanos secs)
  let (h2, allParams) := Heap.alloc h1 []
  let h3 := (copyOrd.enum (h2.read oauthParams)).foldl
    (fun h kv => h.write allParams kv.1 kv.2) h2
  let signed := h3.read allParams
  let signature := generateSignature g method baseURL signed signOrd g.accessTokenSecret
  let h4 := h3.write oauthParams (ascii "oauth_signature") signature
  let header := (headerOrd.enum (h4.read oauthParams)).foldl headerStep (ascii "OAuth ")
  { oauthParams := oauthParams
    allParams := allParams
    signed := signed
    oauthAtCall := h3.read oauthParams
    signature := signature
    heap := h4
    header := TrimSuffix header (ascii ", ") }

/-- The string `generateOAuthHeader` returns. -/
def generateOAuthHeader (g : Globals) (nanos secs : Int) (copyOrd signOrd headerOrd : Order)
    (method baseURL : Str) : Str :=
  (generateOAuthHeaderRun g nanos secs copyOrd signOrd headerOrd method baseURL).header

/-- How the first statements of `deleteTweet` end: `written` lists the error
messages passed to `http.Error` so far. -/
inductive DeleteStart where
  /-- The index expression `parts[2]` was out of range: a run-time panic. -/
  | indexPanic (written : List Str)
  /-- The id was read from `parts[2]` and the upstream request to `apiURL` is
  prepared. -/
  | upstream (written : List Str) (id apiURL : Str)
  deriving DecidableEq

/-- Lines 174 to 181 of `deleteTweet`: split the request path at `/`, report
`Invalid Path` when there are fewer than 3 parts, read `parts[2]`, and build
`apiURL`.  The statement after the `if` is reached on both branches: the `if`
body has no `return`. -/
def deleteTweet (g : Globals) (path : Str) : DeleteStart :=
  let parts := Split path (ascii "/")
  let written := if parts.length < 3 then [ascii "Invalid Path"] else []
  match parts.get? 2 with
  | none => .indexPanic written
  | some id => .upstream written id (g.baseURI ++ ascii "/tweets/" ++ id)

/-! ## The specification's percent-encoding -/

/-- The RFC 3986 unreserved characters as the specification lists them: ASCII
letters, digits, `-`, `.`, `_`, `~`. -/
def unreserved (c : Byte) : Bool :=
  (65 ≤ c.val && c.val ≤ 90) || (97 ≤ c.val && c.val ≤ 122) || (48 ≤ c.val && c.val ≤ 57) ||
    c.val = 45 || c.val = 46 || c.val = 95 || c.val = 126

/-- The percent-encoding as the specification words it: an unreserved
character is left as it is, every other byte (space, `+` and `*` included) is
replaced by `%XX` with two upper-case hex digits. -/
def specPercentEncode : Str → Str
  | [] => []
  | c :: t =>
    if unreserved c then c :: specPercentEncode t
    else (37 : Byte) :: strAt (ascii "0123456789ABCDEF") (c.val / 16) ::
      strAt (ascii "0123456789ABCDEF") (c.val % 16) :: specPercentEncode t

/-! ## `QueryEscape` -/

set_option maxRecDepth 100000 in
theorem shouldEscape_eq_not_unreserved : ∀ c : Byte, shouldEscape c = !unreserved c := by decide

set_option maxRecDepth 100000 in
theorem hex_digits_spec : ∀ c : Byte,
    strAt upperhex (c.val >>> 4) = strAt (ascii "0123456789ABCDEF") (c.val / 16) ∧
    strAt upperhex (c.val &&& 15) = strAt (ascii "0123456789ABCDEF") (c.val % 16) := by decide

set_option maxRecDepth 100000 in
theorem hex_digits_decode : ∀ c : Byte,
    ishex (strAt upperhex (c.val >>> 4)) = true ∧ ishex (strAt upperhex (c.val &&& 15)) = true ∧
    (Fin.ofNat (unhex (strAt upperhex (c.val >>> 4)) * 16 +
      unhex (strAt upperhex (c.val &&& 15))) : Byte) = c := by decide

set_option maxRecDepth 100000 in
theorem hex_digits_kept : ∀ c : Byte,
    shouldEscape (strAt upperhex (c.val >>> 4)) = false ∧
    shouldEscape (strAt upperhex (c.val &&& 15)) = false := by decide

set_option maxRecDepth 100000 in
theorem kept_not_special : ∀ c : Byte, shouldEscape c = false →
    c.val ≠ 37 ∧ c.val ≠ 43 ∧ c.val ≠ 32 ∧ c.val ≠ 38 ∧ c.val ≠ 44 ∧ c.val ≠ 34 ∧ c.val ≠ 61 := by
  decide

theorem escapeLoop_of_kept (s : Str) (h : ∀ c ∈ s, shouldEscape c = false) : escapeLoop s = s := by
  induction s with
  | nil => rfl
  | cons c t ih =>
    have hc := h c (List.mem_cons_self c t)
    have h32 : c.val ≠ 32 := (kept_not_special c hc).2.2.1
    simp [escapeLoop, hc, h32, ih (fun d hd => h d (List.mem_cons_of_mem c hd))]

theorem escapeLoop_of_spaces (s : Str)
    (h : ∀ c ∈ s, (shouldEscape c && !decide (c.val = 32)) = false) :
    escapeLoop s = s.map (fun c => if c.val = 32 then (43 : Byte) else c) := by
  induction s with
  | nil => rfl
  | cons c t ih =>
    have hc := h c (List.mem_cons_self c t)
    have iht := ih (fun d hd => h d (List.mem_cons_of_mem c hd))
    by_cases h32 : c.val = 32
    · simp [escapeLoop, h32, iht]
    · have : shouldEscape c = false := by simpa [h32] using hc
      simp [escapeLoop, h32, this, iht]

/-- The three branches of Go `escape` compute the same string as its final loop. -/
theorem QueryEscape_eq_escapeLoop (s : Str) : QueryEscape s = escapeLoop s := by
  unfold QueryEscape escape
  simp only []
  split
  · rename_i h
    have h1 := List.length_eq_zero.mp h.1
    have h2 := List.length_eq_zero.mp h.2
    rw [List.filter_eq_nil_iff] at h1 h2
    symm
    apply escapeLoop_of_kept
    intro c hc
    have a := h1 c hc
    have b := h2 c hc
    by_cases h32 : c.val = 32
    · simp [h32] at a
      exact a
    · simp [h32] at b
      exact b
  · split
    · rename_i h
      have h2 := List.length_eq_zero.mp h
      rw [List.filter_eq_nil_iff] at h2
      symm
      apply escapeLoop_of_spaces
      intro c hc
      simpa using h2 c hc
    · rfl

/-- Every byte of an escaped string is a kept byte, `+` or `%`. -/
theorem escapeLoop_bytes (s : Str) :
    ∀ b ∈ escapeLoop s, shouldEscape b = false ∨ b.val = 43 ∨ b.val = 37 := by
  induction s with
  | nil => intro b hb; cases hb
  | cons c t ih =>
    intro b hb
    simp only [escapeLoop] at hb
    split at hb
    · rcases List.mem_cons.mp hb with h | h
      · right; left; rw [h]; rfl
      · exact ih b h
    · split at hb
      · rcases List.mem_cons.mp hb with h | h
        · right; right; rw [h]; rfl
        · rcases List.mem_cons.mp h with h | h
          · left; rw [h]; exact (hex_digits_kept c).1
          · rcases List.mem_cons.mp h with h | h
            · left; rw [h]; exact (hex_digits_kept c).2
            · exact ih b h
      · rename_i hk
        rcases List.mem_cons.mp hb with h | h
        · left; rw [h]; simpa using hk
        · exact ih b h

/-- An escaped string contains no `&`, `,`, `"`, `=` and no space. -/
theorem QueryEscape_no_special (s : Str) :
    ∀ b ∈ QueryEscape s, b.val ≠ 38 ∧ b.val ≠ 44 ∧ b.val ≠ 34 ∧ b.val ≠ 61 ∧ b.val ≠ 32 := by
  intro b hb
  rw [QueryEscape_eq_escapeLoop] at hb
  rcases escapeLoop_bytes s b hb with h | h | h
  · have := kept_not_special b h
    exact ⟨this.2.2.2.1, this.2.2.2.2.1, this.2.2.2.2.2.1, this.2.2.2.2.2.2, this.2.2.1⟩
  · omega
  · omega

theorem QueryEscape_of_kept (s : Str) (h : ∀ c ∈ s, shouldEscape c = false) :
    QueryEscape s = s := by
  rw [QueryEscape_eq_escapeLoop]; exact escapeLoop_of_kept s h

theorem pctDecode_cons_of_ne (c : Byte) (x : Str) (h : c.val ≠ 37) :
    pctDecode (c :: x) = c :: pctDecode x := by
  match x with
  | [] => simp [pctDecode]
  | [d] => simp [pctDecode]
  | h1 :: l :: r => simp [pctDecode, h]

/-- Percent-decoding undoes the escaping of a string without a space. -/
theorem pctDecode_escapeLoop (s : Str) (h : ∀ c ∈ s, c.val ≠ 32) :
    pctDecode (escapeLoop s) = s := by
  induction s with
  | nil => simp [escapeLoop, pctDecode]
  | cons c t ih =>
    have h32 := h c (List.mem_cons_self c t)
    have iht := ih (fun d hd => h d (List.mem_cons_of_mem c hd))
    by_cases hc : shouldEscape c = true
    · have hd := hex_digits_decode c
      have h37 : ((37 : Byte) : Nat) = 37 := rfl
      simp [escapeLoop, h32, hc, pctDecode, hd.1, hd.2.1, hd.2.2, iht, h37]
    · have hc' : shouldEscape c = false := by simpa using hc
      have e : escapeLoop (c :: t) = c :: escapeLoop t := by simp [escapeLoop, h32, hc']
      rw [e, pctDecode_cons_of_ne c _ (kept_not_special c hc').1, iht]

/-- Away from the space the program's escaping is the specification's
percent-encoding. -/
theorem escapeLoop_eq_spec (s : Str) (h : ∀ c ∈ s, c.val ≠ 32) :
    escapeLoop s = specPercentEncode s := by
  induction s with
  | nil => rfl
  | cons c t ih =>
    have h32 := h c (List.mem_cons_self c t)
    have iht := ih (fun d hd => h d (List.mem_cons_of_mem c hd))
    have hs := shouldEscape_eq_not_unreserved c
    have hx := hex_digits_spec c
    by_cases hu : unreserved c = true
    · simp [escapeLoop, specPercentEncode, h32, hs, hu, iht]
    · simp [escapeLoop, specPercentEncode, h32, hs, hu, iht, hx.1, hx.2]

/-! ## `sort.Strings` -/

theorem strLE_total (a b : Str) : strLE a b ∨ strLE b a := by
  unfold strLE
  induction a generalizing b with
  | nil => cases b <;> simp [strLess]
  | cons x s ih =>
    cases b with
    | nil => simp [strLess]
    | cons y t =>
      simp only [strLess]
      rcases Nat.lt_trichotomy x.val y.val with h | h | h
      · left
        have : ¬ y.val < x.val := by omega
        simp [h, this]
      · have h1 : ¬ x.val < y.val := by omega
        have h2 : ¬ y.val < x.val := by omega
        simp only [h1, h2, if_false]
        exact ih t
      · right
        have : ¬ x.val < y.val := by omega
        simp [h, this]

theorem strLE_trans (a b c : Str) (hab : strLE a b) (hbc : strLE b c) : strLE a c := by
  unfold strLE at *
  induction a generalizing b c with
  | nil => cases c <;> simp [strLess]
  | cons x s ih =>
    cases b with
    | nil => simp [strLess] at hab
    | cons y t =>
      cases c with
      | nil => simp [strLess] at hbc
      | cons z u =>
        simp only [strLess] at hab hbc ⊢
        by_cases hxy : x.val < y.val
        · by_cases hyz : y.val < z.val
          · have h1 : ¬ z.val < x.val := by omega
            have h2 : x.val < z.val := by omega
            simp [h1, h2]
          · by_cases hzy : z.val < y.val
            · simp [hzy] at hbc
            · have h1 : ¬ z.val < x.val := by omega
              have h2 : x.val < z.val := by omega
              simp [h1, h2]
        · by_cases hyx : y.val < x.val
          · simp [hyx] at hab
          · simp only [hxy, hyx, if_false] at hab
            by_cases hyz : y.val < z.val
            · have h1 : ¬ z.val < x.val := by omega
              have h2 : x.val < z.val := by omega
              simp [h1, h2]
            · by_cases hzy : z.val < y.val
              · simp [hzy] at hbc
              · simp only [hyz, hzy, if_false] at hbc
                have h1 : ¬ z.val < x.val := by omega
                have h2 : ¬ x.val < z.val := by omega
                simp only [h1, h2, if_false]
                exact ih t u hab hbc

theorem strLE_antisymm (a b : Str) (hab : strLE a b) (hba : strLE b a) : a = b := by
  unfold strLE at *
  induction a generalizing b with
  | nil => cases b with
    | nil => rfl
    | cons y t => simp [strLess] at hba
  | cons x s ih =>
    cases b with
    | nil => simp [strLess] at hab
    | cons y t =>
      simp only [strLess] at hab hba
      by_cases hxy : x.val < y.val
      · simp [hxy] at hba
      · by_cases hyx : y.val < x.val
        · simp [hyx] at hab
        · simp only [hxy, hyx, if_false] at hab hba
          have : x = y := Fin.ext (by omega)
          rw [this, ih t hab hba]

theorem sortStrings_perm (l : List Str) : (sortStrings l).Perm l :=
  List.perm_insertionSort strLE l

theorem sortStrings_sorted (l : List Str) : List.Sorted strLE (sortStrings l) :=
  haveI : IsTotal Str strLE := ⟨strLE_total⟩
  haveI : IsTrans Str strLE := ⟨strLE_trans⟩
  List.sorted_insertionSort strLE l

/-- The sorted list is determined by the elements and the order alone: every
sorted arrangement of the same strings is the one `sortStrings` returns. -/
theorem sortStrings_unique (l l' : List Str) (hp : l'.Perm l) (hs : List.Sorted strLE l') :
    l' = sortStrings l :=
  haveI : IsAntisymm Str strLE := ⟨strLE_antisymm⟩
  List.eq_of_perm_of_sorted (hp.trans (sortStrings_perm l).symm) hs (sortStrings_sorted l)

theorem sortStrings_congr (l l' : List Str) (hp : l.Perm l') : sortStrings l = sortStrings l' :=
  sortStrings_unique l' (sortStrings l) ((sortStrings_perm l).trans hp) (sortStrings_sorted l)

/-- With pairwise distinct strings the sorted list is strictly increasing. -/
theorem sortStrings_strict (l : List Str) (hn : l.Nodup) :
    List.Pairwise (fun a b => strLess a b = true) (sortStrings l) := by
  have hs : List.Pairwise strLE (sortStrings l) := sortStrings_sorted l
  have hd : List.Pairwise (fun a b => a ≠ b) (sortStrings l) :=
    ((sortStrings_perm l).nodup_iff).mpr hn
  refine (hs.and hd).imp ?_
  intro a b h
  by_contra hlt
  have hlt' : strLess a b = false := by simpa using hlt
  exact h.2 (strLE_antisymm a b h.1 hlt')

/-! ## Maps -/

theorem GoMap.get_perm (m m' : GoMap) (hp : m.Perm m') (hn : m.keys.Nodup) (k : Str) :
    m.get k = m'.get k := by
  unfold GoMap.get
  suffices h : m.find? (fun p => p.1 == k) = m'.find? (fun p => p.1 == k) by rw [h]
  unfold GoMap.keys at hn
  induction hp with
  | nil => rfl
  | cons x _ ih =>
    simp only [List.map_cons, List.nodup_cons] at hn
    simp only [List.find?_cons]
    split
    · rfl
    · exact ih hn.2
  | swap x y l =>
    simp only [List.map_cons, List.nodup_cons, List.mem_cons, not_or] at hn
    simp only [List.find?_cons]
    by_cases hx : x.1 = k
    · by_cases hy : y.1 = k
      · exact absurd (hy.trans hx.symm) hn.1.1
      · have hx' : (x.1 == k) = true := by simpa using hx
        have hy' : (y.1 == k) = false := by simpa using hy
        simp only [hx', hy']
    · by_cases hy : y.1 = k
      · have hx' : (x.1 == k) = false := by simpa using hx
        have hy' : (y.1 == k) = true := by simpa using hy
        simp only [hx', hy']
      · have hx' : (x.1 == k) = false := by simpa using hx
        have hy' : (y.1 == k) = false := by simpa using hy
        simp only [hx', hy']
  | trans h1 _ ih1 ih2 =>
    rw [ih1 hn]
    exact ih2 (((h1.map Prod.fst).nodup_iff).mp hn)

/-! ## `generateSignature` -/

/-- The string one key contributes to `paramStr`. -/
theorem intercalate_cons_cons (sep x y : Str) (l : List Str) :
    List.intercalate sep (x :: y :: l) = x ++ sep ++ List.intercalate sep (y :: l) := by
  simp [List.intercalate, List.intersperse]

/-- The loop of `generateSignature` joins the pairs with `&`: the separator is
added after every pair but the last. -/
theorem paramLoop_eq (params : GoMap) (keys : List Str) (i : Nat) (acc : Str) (len : Nat)
    (hlen : len = i + keys.length) :
    paramLoop params len i keys acc =
      acc ++ List.intercalate (ascii "&")
        (keys.map (fun k => QueryEscape k ++ ascii "=" ++ QueryEscape (params.get k))) := by
  induction keys generalizing i acc with
  | nil => simp [paramLoop, List.intercalate]
  | cons k rest ih =>
    cases rest with
    | nil =>
      have h : ¬ ((i : Int) < (len : Int) - 1) := by simp at hlen; omega
      simp [paramLoop, h, List.intercalate]
    | cons k2 rest2 =>
      have h : (i : Int) < (len : Int) - 1 := by simp at hlen; omega
      have hl : len = (i + 1) + (k2 :: rest2).length := by simp at hlen ⊢; omega
      rw [paramLoop]
      simp only [h, if_true]
      rw [ih (i + 1) _ hl]
      simp only [List.map_cons]
      rw [intercalate_cons_cons _ (QueryEscape k ++ ascii "=" ++ QueryEscape (params.get k))]
      simp [List.append_assoc]

theorem paramStr_eq (params : GoMap) (ord : Order) :
    paramStr params ord = List.intercalate (ascii "&")
      ((sortStrings (ord.enum params).keys).map
        (fun k => QueryEscape k ++ ascii "=" ++ QueryEscape (params.get k))) := by
  unfold paramStr
  simp only []
  rw [paramLoop_eq params _ 0 [] _ (by simp)]
  simp

theorem keys_enum_perm (params : GoMap) (ord : Order) :
    (ord.enum params).keys.Perm params.keys :=
  (ord.perm params).map Prod.fst

/-- The sorted key list does not depend on the enumeration order. -/
theorem sorted_keys_enum (params : GoMap) (ord : Order) :
    sortStrings (ord.enum params).keys = sortStrings params.keys :=
  sortStrings_congr _ _ (keys_enum_perm params ord)

theorem paramStr_order (params : GoMap) (ord ord' : Order) :
    paramStr params ord = paramStr params ord' := by
  rw [paramStr_eq, paramStr_eq, sorted_keys_enum, sorted_keys_enum]

/-- Two lists of entries that hold the same entries, with distinct keys, give
the same `paramStr`. -/
theorem paramStr_perm (m m' : GoMap) (hp : m.Perm m') (hn : m.keys.Nodup) (ord ord' : Order) :
    paramStr m ord = paramStr m' ord' := by
  rw [paramStr_eq, paramStr_eq, sorted_keys_enum, sorted_keys_enum,
    sortStrings_congr m.keys m'.keys (hp.map Prod.fst)]
  congr 1
  apply List.map_congr_left
  intro k _
  rw [GoMap.get_perm m m' hp hn k]

theorem intercalate_head_last (sep : Byte) (l : List Str)
    (hl : ∀ x ∈ l, x.head? ≠ some sep ∧ x.getLast? ≠ some sep ∧ x ≠ []) :
    (List.intercalate [sep] l).head? ≠ some sep ∧ (List.intercalate [sep] l).getLast? ≠ some sep := by
  induction l with
  | nil => simp [List.intercalate]
  | cons x rest ih =>
    have hx := hl x (List.mem_cons_self x rest)
    cases rest with
    | nil => simpa [List.intercalate] using ⟨hx.1, hx.2.1⟩
    | cons y rest2 =>
      have ih' := ih (fun z hz => hl z (List.mem_cons_of_mem x hz))
      rw [intercalate_cons_cons]
      constructor
      · cases x with
        | nil => exact absurd rfl hx.2.2
        | cons a t => simpa using hx.1
      · have hy := hl y (List.mem_cons_of_mem x (List.mem_cons_self y rest2))
        have hne : List.intercalate [sep] (y :: rest2) ≠ [] := by
          cases rest2 with
          | nil => simpa [List.intercalate] using hy.2.2
          | cons z r => rw [intercalate_cons_cons]; cases y <;> simp
        rw [List.getLast?_append_of_ne_nil _ hne]
        exact ih'.2

/-! ## `generateOAuthHeader`: the maps -/

theorem GoMap.set_fresh (m : GoMap) (k v : Str) (h : k ∉ m.keys) : m.set k v = m ++ [(k, v)] := by
  unfold GoMap.set
  have : m.any (fun p => p.1 == k) = false := by
    rw [List.any_eq_false]
    intro p hp hpk
    apply h
    have : p.1 = k := by simpa using hpk
    rw [← this]
    exact List.mem_map_of_mem Prod.fst hp
  simp [this]

/-- Copying entries with distinct, new keys into a map adds them in the order
in which they are visited. -/
theorem foldl_set_fresh (e : GoMap) (m : GoMap) (hn : e.keys.Nodup)
    (hd : ∀ k ∈ e.keys, k ∉ m.keys) :
    e.foldl (fun m kv => m.set kv.1 kv.2) m = m ++ e := by
  induction e generalizing m with
  | nil => simp
  | cons kv rest ih =>
    unfold GoMap.keys at hn hd ih
    simp only [List.map_cons, List.nodup_cons] at hn
    have hk : kv.1 ∉ m.keys := hd kv.1 (by simp)
    rw [List.foldl_cons, GoMap.set_fresh m kv.1 kv.2 hk, ih (m ++ [(kv.1, kv.2)]) hn.2]
    · simp
    · intro k hkr hkm
      simp only [List.map_append, List.map_cons, List.map_nil, List.mem_append,
        List.mem_singleton] at hkm
      rcases hkm with h | h
      · exact hd k (by simp [hkr]) h
      · exact hn.1 (h ▸ hkr)

theorem foldl_write_second (a b : GoMap) (e : GoMap) :
    e.foldl (fun h kv => Heap.write h 1 kv.1 kv.2) [a, b] =
      [a, e.foldl (fun m kv => m.set kv.1 kv.2) b] := by
  induction e generalizing b with
  | nil => rfl
  | cons kv rest ih =>
    rw [List.foldl_cons, List.foldl_cons]
    have : Heap.write [a, b] 1 kv.1 kv.2 = [a, b.set kv.1 kv.2] := rfl
    rw [this, ih]

theorem oauthParamsLit_keys (g : Globals) (nanos secs : Int) :
    (oauthParamsLit g nanos secs).keys =
      [ascii "oauth_consumer_key", ascii "oauth_nonce", ascii "oauth_signature_method",
        ascii "oauth_timestamp", ascii "oauth_token", ascii "oauth_version"] := rfl

theorem oauthParamsLit_nodup (g : Globals) (nanos secs : Int) :
    (oauthParamsLit g nanos secs).keys.Nodup := by
  rw [oauthParamsLit_keys]; decide

theorem oauthParamsLit_no_signature (g : Globals) (nanos secs : Int) :
    ascii "oauth_signature" ∉ (oauthParamsLit g nanos secs).keys := by
  rw [oauthParamsLit_keys]; decide

/-- A run of `generateOAuthHeader`, computed: `oauthParams` and `allParams` are
two map objects; the second receives a copy of the literal and is what
`generateSignature` reads; the signature is then added to the first. -/
theorem run_eq (g : Globals) (nanos secs : Int) (copyOrd signOrd headerOrd : Order)
    (method baseURL : Str) :
    generateOAuthHeaderRun g nanos secs copyOrd signOrd headerOrd method baseURL =
      { oauthParams := 0
        allParams := 1
        signed := copyOrd.enum (oauthParamsLit g nanos secs)
        oauthAtCall := oauthParamsLit g nanos secs
        signature := generateSignature g method baseURL
          (copyOrd.enum (oauthParamsLit g nanos secs)) signOrd g.accessTokenSecret
        heap := [oauthParamsLit g nanos secs ++ [(ascii "oauth_signature",
            generateSignature g method baseURL
              (copyOrd.enum (oauthParamsLit g nanos secs)) signOrd g.accessTokenSecret)],
          copyOrd.enum (oauthParamsLit g nanos secs)]
        header := TrimSuffix ((headerOrd.enum (oauthParamsLit g nanos secs ++
            [(ascii "oauth_signature", generateSignature g method baseURL
              (copyOrd.enum (oauthParamsLit g nanos secs)) signOrd g.accessTokenSecret)])).foldl
            headerStep (ascii "OAuth ")) (ascii ", ") } := by
  have hp := copyOrd.perm (oauthParamsLit g nanos secs)
  have hn : (copyOrd.enum (oauthParamsLit g nanos secs)).keys.Nodup :=
    ((hp.map Prod.fst).nodup_iff).mpr (oauthParamsLit_nodup g nanos secs)
  have hf := foldl_set_fresh (copyOrd.enum (oauthParamsLit g nanos secs)) [] hn
    (by intro k _ hk; cases hk)
  have hs := GoMap.set_fresh (oauthParamsLit g nanos secs) (ascii "oauth_signature")
    (generateSignature g method baseURL (copyOrd.enum (oauthParamsLit g nanos secs)) signOrd
      g.accessTokenSecret) (oauthParamsLit_no_signature g nanos secs)
  simp only [generateOAuthHeaderRun, Heap.alloc, List.nil_append, List.length_nil]
  have hr : Heap.read ([oauthParamsLit g nanos secs] ++ [[]]) 0 = oauthParamsLit g nanos secs := rfl
  have hl : ([oauthParamsLit g nanos secs] : Heap).length = 1 := rfl
  have hh : ([oauthParamsLit g nanos secs] ++ [[]] : Heap) = [oauthParamsLit g nanos secs, []] := rfl
  rw [hl, hr, hh, foldl_write_second, hf]
  simp only [List.nil_append]
  have r1 : Heap.read [oauthParamsLit g nanos secs, copyOrd.enum (oauthParamsLit g nanos secs)] 1 =
      copyOrd.enum (oauthParamsLit g nanos secs) := rfl
  have r0 : Heap.read [oauthParamsLit g nanos secs, copyOrd.enum (oauthParamsLit g nanos secs)] 0 =
      oauthParamsLit g nanos secs := rfl
  have w0 : ∀ v, Heap.write [oauthParamsLit g nanos secs, copyOrd.enum (oauthParamsLit g nanos secs)]
      0 (ascii "oauth_signature") v =
      [(oauthParamsLit g nanos secs).set (ascii "oauth_signature") v,
        copyOrd.enum (oauthParamsLit g nanos secs)] := fun _ => rfl
  rw [r1, r0, w0, hs]
  rfl

/-! ## `strings.TrimSuffix`, `strings.Split` -/

theorem TrimSuffix_append (x suffix : Str) : TrimSuffix (x ++ suffix) suffix = x := by
  unfold TrimSuffix HasSuffix
  simp

theorem HasSuffix_last (s : Str) (a b : Byte) (h : HasSuffix s [a, b] = true) :
    s.getLast? = some b := by
  unfold HasSuffix at h
  simp only [Bool.and_eq_true, decide_eq_true_eq] at h
  have := List.take_append_drop (s.length - [a, b].length) s
  rw [h.2] at this
  rw [← this]
  simp

theorem isPrefixOf_cons_ne (c b : Byte) (sep t : Str) (h : b ≠ c) :
    (c :: sep).isPrefixOf (b :: t) = false := by
  simp [List.isPrefixOf, Ne.symm h]

theorem isPrefixOf_append_self (sep r : Str) : sep.isPrefixOf (sep ++ r) = true := by
  induction sep with
  | nil => simp [List.isPrefixOf]
  | cons c t ih => simp [List.isPrefixOf, ih]

theorem Index_none (x : Str) (c : Byte) (sep : Str) (h : ∀ b ∈ x, b ≠ c) :
    Index x (c :: sep) = none := by
  induction x with
  | nil => rfl
  | cons b t ih =>
    rw [Index, isPrefixOf_cons_ne c b sep t (h b (List.mem_cons_self b t))]
    simp [ih (fun d hd => h d (List.mem_cons_of_mem b hd))]

theorem Index_append (x : Str) (c : Byte) (sep r : Str) (h : ∀ b ∈ x, b ≠ c) :
    Index (x ++ (c :: sep) ++ r) (c :: sep) = some x.length := by
  induction x with
  | nil =>
    have := isPrefixOf_append_self (c :: sep) r
    simp only [List.nil_append, List.cons_append] at this ⊢
    rw [Index, this]
    rfl
  | cons b t ih =>
    simp only [List.cons_append]
    rw [Index, isPrefixOf_cons_ne c b sep _ (h b (List.mem_cons_self b t))]
    have := ih (fun d hd => h d (List.mem_cons_of_mem b hd))
    simp only [List.append_assoc, List.cons_append] at this
    simp [this]

/-- Cutting a joined string at the separator gives back the joined pieces, when
no piece contains the first byte of the separator. -/
theorem genSplit_intercalate (c : Byte) (sep : Str) (items : List Str) (n : Nat)
    (hne : items ≠ []) (hn : items.length ≤ n + 1) (hc : ∀ x ∈ items, ∀ b ∈ x, b ≠ c) :
    genSplit n (List.intercalate (c :: sep) items) (c :: sep) = items := by
  induction items generalizing n with
  | nil => exact absurd rfl hne
  | cons x rest ih =>
    have hx := hc x (List.mem_cons_self x rest)
    cases rest with
    | nil =>
      have e : List.intercalate (c :: sep) [x] = x := by simp [List.intercalate]
      rw [e]
      cases n with
      | zero => rfl
      | succ m => rw [genSplit, Index_none x c sep hx]
    | cons y rest2 =>
      rw [intercalate_cons_cons]
      cases n with
      | zero => simp at hn
      | succ m =>
        rw [genSplit, Index_append x c sep _ hx]
        simp only [List.append_assoc]
        rw [List.take_left' rfl]
        have hd : List.drop (x.length + (c :: sep).length)
            (x ++ ((c :: sep) ++ List.intercalate (c :: sep) (y :: rest2))) =
            List.intercalate (c :: sep) (y :: rest2) := by
          rw [← List.append_assoc]
          exact List.drop_left' (by simp)
        rw [hd, ih m (by simp) (by simp at hn ⊢; omega)
          (fun z hz => hc z (List.mem_cons_of_mem x hz))]

theorem Count_intercalate (c : Byte) (sep : Str) (items : List Str) (fuel : Nat)
    (hne : items ≠ []) (hn : items.length ≤ fuel + 1) (hc : ∀ x ∈ items, ∀ b ∈ x, b ≠ c) :
    Count fuel (List.intercalate (c :: sep) items) (c :: sep) = items.length - 1 := by
  induction items generalizing fuel with
  | nil => exact absurd rfl hne
  | cons x rest ih =>
    have hx := hc x (List.mem_cons_self x rest)
    cases rest with
    | nil =>
      have e : List.intercalate (c :: sep) [x] = x := by simp [List.intercalate]
      rw [e]
      cases fuel with
      | zero => rfl
      | succ m => rw [Count, Index_none x c sep hx]; rfl
    | cons y rest2 =>
      rw [intercalate_cons_cons]
      cases fuel with
      | zero => simp at hn
      | succ m =>
        rw [Count, Index_append x c sep _ hx]
        simp only [List.append_assoc]
        have hd : List.drop (x.length + (c :: sep).length)
            (x ++ ((c :: sep) ++ List.intercalate (c :: sep) (y :: rest2))) =
            List.intercalate (c :: sep) (y :: rest2) := by
          rw [← List.append_assoc]
          exact List.drop_left' (by simp)
        rw [hd, ih m (by simp) (by simp at hn ⊢; omega)
          (fun z hz => hc z (List.mem_cons_of_mem x hz))]
        simp

theorem intercalate_length_ge (c : Byte) (sep : Str) (items : List Str) :
    items.length ≤ (List.intercalate (c :: sep) items).length + 1 := by
  induction items with
  | nil => simp
  | cons x rest ih =>
    cases rest with
    | nil => simp
    | cons y rest2 =>
      rw [intercalate_cons_cons]
      simp only [List.length_append, List.length_cons] at ih ⊢
      omega

/-- Go `strings.Split` undoes joining, when no piece contains the first byte of
the separator. -/
theorem Split_intercalate (c : Byte) (sep : Str) (items : List Str)
    (hne : items ≠ []) (hc : ∀ x ∈ items, ∀ b ∈ x, b ≠ c) :
    Split (List.intercalate (c :: sep) items) (c :: sep) = items := by
  unfold Split
  rw [Count_intercalate c sep items _ hne
    (by have := intercalate_length_ge c sep items; omega) hc]
  exact genSplit_intercalate c sep items _ hne (by omega) hc

/-! ## `generateOAuthHeader`: the header -/

theorem headerStep_eq (header : Str) (kv : Str × Str) :
    headerStep header kv = header ++ (headerItem kv ++ [44, 32]) := by
  simp [headerStep, headerItem]

theorem foldl_headerStep (e : GoMap) (acc : Str) :
    e.foldl headerStep acc = acc ++ (e.map (fun kv => headerItem kv ++ [44, 32])).flatten := by
  induction e generalizing acc with
  | nil => simp
  | cons kv rest ih =>
    rw [List.foldl_cons, ih, headerStep_eq]
    simp [List.append_assoc]

theorem flatten_sep_eq_intercalate (sep : Str) (items : List Str) (hne : items ≠ []) :
    (items.map (fun x => x ++ sep)).flatten = List.intercalate sep items ++ sep := by
  induction items with
  | nil => exact absurd rfl hne
  | cons x rest ih =>
    cases rest with
    | nil => simp [List.intercalate]
    | cons y rest2 =>
      rw [intercalate_cons_cons, List.map_cons, List.flatten_cons, ih (by simp)]
      simp [List.append_assoc]

/-- The entries of `oauthParams` when the header is written. -/
theorem headerEntries_perm (g : Globals) (nanos secs : Int) (headerOrd : Order) (sig : Str) :
    (headerOrd.enum (oauthParamsLit g nanos secs ++ [(ascii "oauth_signature", sig)])).Perm
      (oauthParamsLit g nanos secs ++ [(ascii "oauth_signature", sig)]) :=
  headerOrd.perm _

/-- The header is `OAuth ` followed by the items of the seven entries, in the
order in which the last loop visits them, separated by `, `. -/
theorem header_eq (g : Globals) (nanos secs : Int) (copyOrd signOrd headerOrd : Order)
    (method baseURL : Str) :
    generateOAuthHeader g nanos secs copyOrd signOrd headerOrd method baseURL =
      ascii "OAuth " ++ List.intercalate (ascii ", ")
        ((headerOrd.enum (oauthParamsLit g nanos secs ++ [(ascii "oauth_signature",
          generateSignature g method baseURL (copyOrd.enum (oauthParamsLit g nanos secs))
            signOrd g.accessTokenSecret)])).map headerItem) := by
  unfold generateOAuthHeader
  rw [run_eq]
  simp only []
  rw [foldl_headerStep]
  have hp := headerEntries_perm g nanos secs headerOrd
    (generateSignature g method baseURL (copyOrd.enum (oauthParamsLit g nanos secs)) signOrd
      g.accessTokenSecret)
  have hne : (headerOrd.enum (oauthParamsLit g nanos secs ++ [(ascii "oauth_signature",
      generateSignature g method baseURL (copyOrd.enum (oauthParamsLit g nanos secs))
        signOrd g.accessTokenSecret)])).map headerItem ≠ [] := by
    intro h
    have h1 := congrArg List.length h
    rw [List.length_map, List.Perm.length_eq hp] at h1
    simp at h1
  have hs : (ascii ", " : Str) = [44, 32] := rfl
  have := flatten_sep_eq_intercalate [44, 32] _ hne
  rw [List.map_map] at this
  rw [hs]
  have e : (fun kv => headerItem kv ++ [44, 32]) = ((fun x => x ++ [44, 32]) ∘ headerItem) := rfl
  rw [e, this, ← List.append_assoc, TrimSuffix_append]

/-- The signature depends on the set of signed entries only, not on the orders
of the copy loop and of the key collection. -/
theorem signature_enum_irrelevant (g : Globals) (nanos secs : Int) (copyOrd signOrd copyOrd' signOrd' : Order)
    (method baseURL : Str) :
    generateSignature g method baseURL (copyOrd.enum (oauthParamsLit g nanos secs)) signOrd
        g.accessTokenSecret =
      generateSignature g method baseURL (copyOrd'.enum (oauthParamsLit g nanos secs)) signOrd'
        g.accessTokenSecret := by
  have hp : (copyOrd.enum (oauthParamsLit g nanos secs)).Perm
      (copyOrd'.enum (oauthParamsLit g nanos secs)) :=
    (copyOrd.perm _).trans (copyOrd'.perm _).symm
  have hn : (copyOrd.enum (oauthParamsLit g nanos secs)).keys.Nodup :=
    ((((copyOrd.perm _).map Prod.fst)).nodup_iff).mpr (oauthParamsLit_nodup g nanos secs)
  unfold generateSignature signatureBaseStr
  rw [paramStr_perm _ _ hp hn signOrd signOrd']

theorem headerItem_no_comma (kv : Str × Str) : ∀ b ∈ headerItem kv, b ≠ (44 : Byte) := by
  intro b hb hc
  unfold headerItem at hb
  simp only [List.mem_append, List.mem_cons, List.mem_singleton, List.not_mem_nil, or_false] at hb
  rcases hb with ((h | h | h) | h) | h
  · exact (QueryEscape_no_special kv.1 b h).2.1 (by rw [hc]; rfl)
  · rw [hc] at h; exact absurd h (by decide)
  · rw [hc] at h; exact absurd h (by decide)
  · exact (QueryEscape_no_special kv.2 b h).2.1 (by rw [hc]; rfl)
  · rw [hc] at h; exact absurd h (by decide)

theorem sevenKeys_escape :
    ∀ k ∈ [ascii "oauth_consumer_key", ascii "oauth_nonce", ascii "oauth_signature_method",
        ascii "oauth_timestamp", ascii "oauth_token", ascii "oauth_version",
        ascii "oauth_signature"],
      QueryEscape k = k ∧ (ascii "oauth_").isPrefixOf k = true := by
  decide

theorem sevenKeys_nodup :
    [ascii "oauth_consumer_key", ascii "oauth_nonce", ascii "oauth_signature_method",
      ascii "oauth_timestamp", ascii "oauth_token", ascii "oauth_version",
      ascii "oauth_signature"].Nodup := by
  decide

theorem headerEntries_keys (g : Globals) (nanos secs : Int) (sig : Str) :
    (oauthParamsLit g nanos secs ++ [(ascii "oauth_signature", sig)]).keys =
      [ascii "oauth_consumer_key", ascii "oauth_nonce", ascii "oauth_signature_method",
        ascii "oauth_timestamp", ascii "oauth_token", ascii "oauth_version",
        ascii "oauth_signature"] := rfl

theorem intercalate_getLast (sep : Str) (q : Byte) (items : List Str) (hne : items ≠ [])
    (hq : ∀ x ∈ items, x.getLast? = some q) (acc : Str) :
    (acc ++ List.intercalate sep items).getLast? = some q := by
  induction items generalizing acc with
  | nil => exact absurd rfl hne
  | cons x rest ih =>
    cases rest with
    | nil =>
      have hx := hq x (List.mem_cons_self x [])
      have hxne : x ≠ [] := by intro h; rw [h] at hx; simp at hx
      have e : List.intercalate sep [x] = x := by simp [List.intercalate]
      rw [e, List.getLast?_append_of_ne_nil _ hxne, hx]
    | cons y rest2 =>
      rw [intercalate_cons_cons, ← List.append_assoc, ← List.append_assoc]
      exact ih (by simp) (fun z hz => hq z (List.mem_cons_of_mem x hz)) _

theorem headerItem_getLast (kv : Str × Str) : (headerItem kv).getLast? = some (34 : Byte) := by
  unfold headerItem
  rw [List.getLast?_append_of_ne_nil _ (by simp)]
  rfl

/-! ## `crypto/sha1`, `crypto/hmac`, `encoding/base64` -/

set_option maxRecDepth 1000000 in
/-- The model of HMAC-SHA1 reproduces test case 2 of RFC 2202. -/
theorem hmacSha1_rfc2202 :
    hmacSha1 (ascii "Jefe") (ascii "what do ya want for nothing?") =
      [0xef, 0xfc, 0xdf, 0x6a, 0xe5, 0xeb, 0x2f, 0xa2, 0xd2, 0x74, 0x16, 0xd5, 0xf1, 0x84, 0xdf,
        0x9c, 0x25, 0x9a, 0x7c, 0x79] := by
  decide

/-- C1: the escaping used by `generateSignature` does not write a space as
`%20`: `url.QueryEscape` writes it as `+`, where the RFC 3986 encoding of the
specification gives `%20`; a parameter value `a b` enters the parameter string
as `a+b`, and the base string as `a%2Bb` instead of `a%2520b`. -/
theorem QueryEscape_space_is_plus :
    QueryEscape (ascii " ") = ascii "+" ∧
    specPercentEncode (ascii " ") = ascii "%20" ∧
    paramStr [(ascii "oauth_token", ascii "a b")] Order.stored = ascii "oauth_token=a+b" ∧
    signatureBaseStr (ascii "POST") (ascii "https://api.twitter.com/2/tweets")
        [(ascii "oauth_token", ascii "a b")] Order.stored =
      ascii "POST&https%3A%2F%2Fapi.twitter.com%2F2%2Ftweets&oauth_token%3Da%2Bb" ∧
    ascii "POST" ++ ascii "&" ++ specPercentEncode (ascii "https://api.twitter.com/2/tweets") ++
        ascii "&" ++ specPercentEncode (specPercentEncode (ascii "oauth_token") ++ ascii "=" ++
          specPercentEncode (ascii "a b")) =
      ascii "POST&https%3A%2F%2Fapi.twitter.com%2F2%2Ftweets&oauth_token%3Da%2520b" := by
  decide

/-- C2: the base string for `POST`, `https://api.example.com/2/tweets` and the
parameters `a=1`, `b=2` is the string of the specification, whatever the
enumeration order; and in general the base string is the method, the escaped
URL and the escaped joined parameter string separated by `&`, the joined string
being the pairs `enc(key)=enc(value)` in sorted key order with `&` between them
and neither in front nor at the end. -/
theorem signatureBaseStr_eq :
    (∀ ord : Order,
      signatureBaseStr (ascii "POST") (ascii "https://api.example.com/2/tweets")
          [(ascii "a", ascii "1"), (ascii "b", ascii "2")] ord =
        ascii "POST&https%3A%2F%2Fapi.example.com%2F2%2Ftweets&a%3D1%26b%3D2") ∧
    (∀ (method baseURL : Str) (params : GoMap) (ord : Order),
      signatureBaseStr method baseURL params ord =
        method ++ ascii "&" ++ QueryEscape baseURL ++ ascii "&" ++
          QueryEscape (List.intercalate (ascii "&")
            ((sortStrings (ord.enum params).keys).map
              (fun k => QueryEscape k ++ ascii "=" ++ QueryEscape (params.get k)))) ∧
      (List.intercalate (ascii "&")
        ((sortStrings (ord.enum params).keys).map
          (fun k => QueryEscape k ++ ascii "=" ++ QueryEscape (params.get k)))).head? ≠
          some (38 : Byte) ∧
      (List.intercalate (ascii "&")
        ((sortStrings (ord.enum params).keys).map
          (fun k => QueryEscape k ++ ascii "=" ++ QueryEscape (params.get k)))).getLast? ≠
          some (38 : Byte)) := by
  constructor
  · intro ord
    unfold signatureBaseStr
    rw [paramStr_order _ ord Order.stored]
    decide
  · intro method baseURL params ord
    refine ⟨?_, ?_⟩
    · unfold signatureBaseStr
      rw [paramStr_eq]
    · have hs : (ascii "&" : Str) = [38] := rfl
      rw [hs]
      apply intercalate_head_last
      intro x hx
      obtain ⟨k, _, rfl⟩ := List.mem_map.mp hx
      have h61 : (ascii "=" : Str) = [61] := rfl
      rw [h61]
      refine ⟨?_, ?_, ?_⟩
      · cases hk : QueryEscape k with
        | nil => simp
        | cons a t =>
          have := (QueryEscape_no_special k a (by rw [hk]; exact List.mem_cons_self a t)).1
          simp only [List.cons_append, List.head?_cons, ne_eq, Option.some.injEq]
          intro h; rw [h] at this; exact this rfl
      · intro hl
        have hm := List.mem_of_mem_getLast? (Option.mem_def.mpr hl)
        simp only [List.mem_append, List.mem_singleton] at hm
        rcases hm with (h | h) | h
        · exact (QueryEscape_no_special k _ h).1 rfl
        · exact absurd h (by decide)
        · exact (QueryEscape_no_special _ _ h).1 rfl
      · simp

/-- C3: for a map with pairwise distinct keys the keys are used in strictly
increasing byte order, the parameter string lists the pairs in that order, and
the base string and the signature are the same for every enumeration order and
every arrangement of the same entries. -/
theorem signature_order_independent (g : Globals) (method baseURL tokenSecret : Str)
    (params params' : GoMap) (ord ord' : Order)
    (hn : params.keys.Nodup) (hp : params'.Perm params) :
    List.Pairwise (fun a b => strLess a b = true) (sortStrings (ord.enum params).keys) ∧
    (sortStrings (ord.enum params).keys).Perm params.keys ∧
    paramStr params ord = List.intercalate (ascii "&")
      ((sortStrings (ord.enum params).keys).map
        (fun k => QueryEscape k ++ ascii "=" ++ QueryEscape (params.get k))) ∧
    signatureBaseStr method baseURL params ord = signatureBaseStr method baseURL params' ord' ∧
    generateSignature g method baseURL params ord tokenSecret =
      generateSignature g method baseURL params' ord' tokenSecret := by
  have hk := keys_enum_perm params ord
  have hb : signatureBaseStr method baseURL params ord =
      signatureBaseStr method baseURL params' ord' := by
    unfold signatureBaseStr
    rw [paramStr_perm params params' hp.symm hn ord ord']
  refine ⟨sortStrings_strict _ ((hk.nodup_iff).mpr hn), (sortStrings_perm _).trans hk,
    paramStr_eq params ord, hb, ?_⟩
  unfold generateSignature
  rw [hb]

/-- C3 at the map `b=2`, `a=1`, stored in either order and enumerated last to
first: the keys are used as `a`, `b` and the base strings agree. -/
theorem signature_order_independent_witness :
    (GoMap.keys [(ascii "b", ascii "2"), (ascii "a", ascii "1")]).Nodup ∧
    sortStrings (Order.reversed.enum [(ascii "b", ascii "2"), (ascii "a", ascii "1")]).keys =
      [ascii "a", ascii "b"] ∧
    signatureBaseStr (ascii "POST") (ascii "https://api.example.com/2/tweets")
        [(ascii "b", ascii "2"), (ascii "a", ascii "1")] Order.reversed =
      signatureBaseStr (ascii "POST") (ascii "https://api.example.com/2/tweets")
        [(ascii "a", ascii "1"), (ascii "b", ascii "2")] Order.reversed :=
  ⟨by decide, by decide,
    (signature_order_independent ⟨[], [], [], [], []⟩ (ascii "POST")
      (ascii "https://api.example.com/2/tweets") []
      [(ascii "b", ascii "2"), (ascii "a", ascii "1")]
      [(ascii "a", ascii "1"), (ascii "b", ascii "2")] Order.reversed Order.reversed
      (by decide) (List.Perm.swap _ _ _)).2.2.2.1⟩

/-- C4: in every run of `generateOAuthHeader` the map handed to
`generateSignature` holds exactly the six entries of the literal, with
`HMAC-SHA1` and `1.0` as method and version, and no `oauth_signature`; the
signature is stored in `oauthParams` only after it is computed, and the map that
was signed is another map object, unchanged when the function returns. -/
theorem signed_map_six_keys (g : Globals) (nanos secs : Int) (copyOrd signOrd headerOrd : Order)
    (method baseURL : Str) :
    (generateOAuthHeaderRun g nanos secs copyOrd signOrd headerOrd method baseURL).signed.Perm
      [(ascii "oauth_consumer_key", g.apiKey), (ascii "oauth_nonce", fmtD nanos),
       (ascii "oauth_signature_method", ascii "HMAC-SHA1"), (ascii "oauth_timestamp", fmtD secs),
       (ascii "oauth_token", g.accessToken), (ascii "oauth_version", ascii "1.0")] ∧
    (generateOAuthHeaderRun g nanos secs copyOrd signOrd headerOrd method baseURL).signed.keys.Nodup ∧
    ascii "oauth_signature" ∉
      (generateOAuthHeaderRun g nanos secs copyOrd signOrd headerOrd method baseURL).signed.keys ∧
    ascii "oauth_signature" ∉
      (generateOAuthHeaderRun g nanos secs copyOrd signOrd headerOrd method baseURL).oauthAtCall.keys ∧
    (generateOAuthHeaderRun g nanos secs copyOrd signOrd headerOrd method baseURL).signature =
      generateSignature g method baseURL
        (generateOAuthHeaderRun g nanos secs copyOrd signOrd headerOrd method baseURL).signed
        signOrd g.accessTokenSecret ∧
    ((generateOAuthHeaderRun g nanos secs copyOrd signOrd headerOrd method baseURL).heap.read
      (generateOAuthHeaderRun g nanos secs copyOrd signOrd headerOrd method baseURL).oauthParams).get
        (ascii "oauth_signature") =
      (generateOAuthHeaderRun g nanos secs copyOrd signOrd headerOrd method baseURL).signature ∧
    (generateOAuthHeaderRun g nanos secs copyOrd signOrd headerOrd method baseURL).heap.read
      (generateOAuthHeaderRun g nanos secs copyOrd signOrd headerOrd method baseURL).allParams =
      (generateOAuthHeaderRun g nanos secs copyOrd signOrd headerOrd method baseURL).signed ∧
    (generateOAuthHeaderRun g nanos secs copyOrd signOrd headerOrd method baseURL).allParams ≠
      (generateOAuthHeaderRun g nanos secs copyOrd signOrd headerOrd method baseURL).oauthParams := by
  rw [run_eq]
  have hp := copyOrd.perm (oauthParamsLit g nanos secs)
  have hk := hp.map Prod.fst
  refine ⟨hp, (hk.nodup_iff).mpr (oauthParamsLit_nodup g nanos secs), ?_, ?_, rfl, rfl, rfl, ?_⟩
  · intro h
    exact oauthParamsLit_no_signature g nanos secs (hk.mem_iff.mp h)
  · exact oauthParamsLit_no_signature g nanos secs
  · exact Nat.one_ne_zero

/-- C6: the header starts with `OAuth `; what follows, split at `, `, is
exactly 7 items `key="value"` (byte 61 is `=`, byte 34 the double quote), every
key starts with `oauth_`, the 7 keys are pairwise distinct, no key or value
contains a comma, a double quote, `=` or a space, and the header does not end
with `, `. -/
theorem header_shape (g : Globals) (nanos secs : Int) (copyOrd signOrd headerOrd : Order)
    (method baseURL : Str) :
    ∃ kvs : List (Str × Str),
      (generateOAuthHeader g nanos secs copyOrd signOrd headerOrd method baseURL).take 6 =
        ascii "OAuth " ∧
      Split ((generateOAuthHeader g nanos secs copyOrd signOrd headerOrd method baseURL).drop 6)
          (ascii ", ") =
        kvs.map (fun kv => kv.1 ++ [61, 34] ++ kv.2 ++ [34]) ∧
      kvs.length = 7 ∧
      (∀ kv ∈ kvs, (ascii "oauth_").isPrefixOf kv.1 = true) ∧
      (∀ kv ∈ kvs, ∀ b ∈ kv.1 ++ kv.2, b.val ≠ 44 ∧ b.val ≠ 34 ∧ b.val ≠ 61 ∧ b.val ≠ 32) ∧
      (kvs.map Prod.fst).Nodup ∧
      HasSuffix (generateOAuthHeader g nanos secs copyOrd signOrd headerOrd method baseURL)
        (ascii ", ") = false := by
  rw [header_eq]
  generalize hsig : generateSignature g method baseURL (copyOrd.enum (oauthParamsLit g nanos secs))
    signOrd g.accessTokenSecret = sig
  have hp := headerEntries_perm g nanos secs headerOrd sig
  generalize he : headerOrd.enum (oauthParamsLit g nanos secs ++ [(ascii "oauth_signature", sig)])
    = e at hp
  have hkeys : e.keys.Perm [ascii "oauth_consumer_key", ascii "oauth_nonce",
      ascii "oauth_signature_method", ascii "oauth_timestamp", ascii "oauth_token",
      ascii "oauth_version", ascii "oauth_signature"] := by
    have := hp.map Prod.fst
    rwa [← headerEntries_keys g nanos secs sig]
  have hlen : e.length = 7 := by rw [List.Perm.length_eq hp]; rfl
  have hne : e.map headerItem ≠ [] := by
    intro h
    have := congrArg List.length h
    rw [List.length_map, hlen] at this
    simp at this
  have hkey : ∀ kv ∈ e, QueryEscape kv.1 = kv.1 ∧ (ascii "oauth_").isPrefixOf kv.1 = true := by
    intro kv hkv
    exact sevenKeys_escape kv.1 (hkeys.mem_iff.mp (List.mem_map_of_mem Prod.fst hkv))
  refine ⟨e.map (fun kv => (QueryEscape kv.1, QueryEscape kv.2)), ?_, ?_, ?_, ?_, ?_, ?_, ?_⟩
  · exact List.take_left' rfl
  · rw [show List.drop 6 (ascii "OAuth " ++ List.intercalate (ascii ", ") (e.map headerItem)) =
      List.intercalate (ascii ", ") (e.map headerItem) from List.drop_left' rfl]
    have hs : (ascii ", " : Str) = (44 : Byte) :: [32] := rfl
    rw [hs, Split_intercalate 44 [32] _ hne]
    · rw [List.map_map]
      rfl
    · intro x hx
      obtain ⟨kv, _, rfl⟩ := List.mem_map.mp hx
      exact headerItem_no_comma kv
  · rw [List.length_map, hlen]
  · intro kv hkv
    obtain ⟨p, hp', rfl⟩ := List.mem_map.mp hkv
    simp only []
    rw [(hkey p hp').1]
    exact (hkey p hp').2
  · intro kv hkv b hb
    obtain ⟨p, _, rfl⟩ := List.mem_map.mp hkv
    simp only [List.mem_append] at hb
    rcases hb with h | h
    · have := QueryEscape_no_special p.1 b h
      exact ⟨this.2.1, this.2.2.1, this.2.2.2.1, this.2.2.2.2⟩
    · have := QueryEscape_no_special p.2 b h
      exact ⟨this.2.1, this.2.2.1, this.2.2.2.1, this.2.2.2.2⟩
  · rw [List.map_map]
    have : e.map (Prod.fst ∘ fun kv => (QueryEscape kv.1, QueryEscape kv.2)) = e.keys := by
      unfold GoMap.keys
      apply List.map_congr_left
      intro kv hkv
      exact (hkey kv hkv).1
    rw [this]
    exact (hkeys.nodup_iff).mpr sevenKeys_nodup
  · cases hsuf : HasSuffix (ascii "OAuth " ++ List.intercalate (ascii ", ") (e.map headerItem))
        (ascii ", ") with
    | false => rfl
    | true =>
      have h1 := HasSuffix_last _ 44 32 hsuf
      have h2 := intercalate_getLast (ascii ", ") 34 (e.map headerItem) hne
        (by
          intro x hx
          obtain ⟨kv, _, rfl⟩ := List.mem_map.mp hx
          exact headerItem_getLast kv)
        (ascii "OAuth ")
      rw [h2] at h1
      exact absurd h1 (by decide)

/-- C8: percent-decoding the program's encoding of `a b` gives `a+b`, not `a b`:
the space is written as `+`, which the decoding of the specification keeps. -/
theorem pctDecode_QueryEscape_space :
    QueryEscape (ascii "a b") = ascii "a+b" ∧
    pctDecode (QueryEscape (ascii "a b")) = ascii "a+b" ∧
    pctDecode (QueryEscape (ascii "a b")) ≠ ascii "a b" ∧
    pctDecode (specPercentEncode (ascii "a b")) = ascii "a b" := by
  decide

/-- Away from the space the round trip of the specification holds: decoding
the escaped form of a string without a space gives the string back, and a string
of unreserved characters is not changed by the escaping. -/
theorem roundtrip_without_space (s : Str) (h : ∀ c ∈ s, c.val ≠ 32) :
    pctDecode (QueryEscape s) = s ∧
    ((∀ c ∈ s, unreserved c = true) → QueryEscape s = s) := by
  refine ⟨?_, ?_⟩
  · rw [QueryEscape_eq_escapeLoop]
    exact pctDecode_escapeLoop s h
  · intro hu
    apply QueryEscape_of_kept
    intro c hc
    rw [shouldEscape_eq_not_unreserved, hu c hc]
    rfl

/-- Away from the space the program's escaping is the percent-encoding of the
specification. -/
theorem QueryEscape_eq_spec (s : Str) (h : ∀ c ∈ s, c.val ≠ 32) :
    QueryEscape s = specPercentEncode s := by
  rw [QueryEscape_eq_escapeLoop]
  exact escapeLoop_eq_spec s h

/-- The path handling of `deleteTweet`, case by case: with fewer than 3 parts
the error is reported and the index expression panics; with at least 3 parts the
id is the third part and the upstream URL is `baseURI + "/tweets/" + id`. -/
theorem deleteTweet_cases (g : Globals) (path : Str) :
    ((Split path (ascii "/")).length < 3 →
      deleteTweet g path = .indexPanic [ascii "Invalid Path"]) ∧
    (∀ id, (Split path (ascii "/")).get? 2 = some id →
      deleteTweet g path = .upstream [] id (g.baseURI ++ ascii "/tweets/" ++ id)) := by
  unfold deleteTweet
  refine ⟨?_, ?_⟩
  · intro h
    have : (Split path (ascii "/")).get? 2 = none := List.get?_eq_none.mpr (by omega)
    simp only []
    rw [this]
    simp [h]
  · intro id h
    have hl : ¬ (Split path (ascii "/")).length < 3 := by
      intro hlt
      have : (Split path (ascii "/")).get? 2 = none := List.get?_eq_none.mpr (by omega)
      rw [this] at h
      cases h
    simp only []
    rw [h]
    simp [hl]

set_option maxRecDepth 1000000 in
/-- C7, as stated, fails: with the same inputs and clock readings the header
begins with the consumer key when the last loop visits the entries as stored,
and with the signature when it visits them last to first; the two headers
differ. -/
theorem header_order_dependent :
    (generateOAuthHeader ⟨ascii "ck", ascii "secret1", ascii "tok", ascii "secret2", []⟩
      1700000000123456789 1700000000 Order.stored Order.stored Order.stored (ascii "DELETE")
      (ascii "https://api.example.com/2/tweets/42")).take 21 = ascii "OAuth oauth_consumer_" ∧
    (generateOAuthHeader ⟨ascii "ck", ascii "secret1", ascii "tok", ascii "secret2", []⟩
      1700000000123456789 1700000000 Order.stored Order.stored Order.reversed (ascii "DELETE")
      (ascii "https://api.example.com/2/tweets/42")).take 21 = ascii "OAuth oauth_signature" ∧
    generateOAuthHeader ⟨ascii "ck", ascii "secret1", ascii "tok", ascii "secret2", []⟩
      1700000000123456789 1700000000 Order.stored Order.stored Order.stored (ascii "DELETE")
      (ascii "https://api.example.com/2/tweets/42") ≠
    generateOAuthHeader ⟨ascii "ck", ascii "secret1", ascii "tok", ascii "secret2", []⟩
      1700000000123456789 1700000000 Order.stored Order.stored Order.reversed (ascii "DELETE")
      (ascii "https://api.example.com/2/tweets/42") := by
  have h1 : (generateOAuthHeader ⟨ascii "ck", ascii "secret1", ascii "tok", ascii "secret2", []⟩
      1700000000123456789 1700000000 Order.stored Order.stored Order.stored (ascii "DELETE")
      (ascii "https://api.example.com/2/tweets/42")).take 21 = ascii "OAuth oauth_consumer_" := by
    rw [header_eq]; decide
  have h2 : (generateOAuthHeader ⟨ascii "ck", ascii "secret1", ascii "tok", ascii "secret2", []⟩
      1700000000123456789 1700000000 Order.stored Order.stored Order.reversed (ascii "DELETE")
      (ascii "https://api.example.com/2/tweets/42")).take 21 = ascii "OAuth oauth_signature" := by
    rw [header_eq]; decide
  refine ⟨h1, h2, ?_⟩
  intro h
  rw [h, h2] at h1
  revert h1
  decide

/-- C7, amended: the orders of the copy loop and of the key collection do not
change the header; the order of the last loop changes only the order of the
items: the items of two headers for the same inputs and clock readings are the
same up to their order. -/
theorem header_items_perm (g : Globals) (nanos secs : Int)
    (copyOrd signOrd headerOrd copyOrd' signOrd' headerOrd' : Order) (method baseURL : Str) :
    generateOAuthHeader g nanos secs copyOrd signOrd headerOrd method baseURL =
      generateOAuthHeader g nanos secs copyOrd' signOrd' headerOrd method baseURL ∧
    (Split ((generateOAuthHeader g nanos secs copyOrd signOrd headerOrd method baseURL).drop 6)
      (ascii ", ")).Perm
      (Split ((generateOAuthHeader g nanos secs copyOrd' signOrd' headerOrd' method baseURL).drop 6)
        (ascii ", ")) := by
  rw [header_eq, header_eq, header_eq, signature_enum_irrelevant g nanos secs copyOrd' signOrd' copyOrd signOrd]
  refine ⟨rfl, ?_⟩
  generalize generateSignature g method baseURL (copyOrd.enum (oauthParamsLit g nanos secs))
    signOrd g.accessTokenSecret = sig
  have hp := headerEntries_perm g nanos secs headerOrd sig
  have hp' := headerEntries_perm g nanos secs headerOrd' sig
  have hsplit : ∀ e : GoMap, e ≠ [] →
      Split ((ascii "OAuth " ++ List.intercalate (ascii ", ") (e.map headerItem)).drop 6)
        (ascii ", ") = e.map headerItem := by
    intro e hne
    rw [show List.drop 6 (ascii "OAuth " ++ List.intercalate (ascii ", ") (e.map headerItem)) =
      List.intercalate (ascii ", ") (e.map headerItem) from List.drop_left' rfl]
    have hs : (ascii ", " : Str) = (44 : Byte) :: [32] := rfl
    rw [hs]
    apply Split_intercalate
    · simpa using hne
    · intro x hx
      obtain ⟨kv, _, rfl⟩ := List.mem_map.mp hx
      exact headerItem_no_comma kv
  have hne : ∀ e : GoMap,
      e.Perm (oauthParamsLit g nanos secs ++ [(ascii "oauth_signature", sig)]) → e ≠ [] := by
    intro e he h
    rw [h] at he
    have := List.Perm.length_eq he
    simp at this
  rw [hsplit _ (hne _ hp), hsplit _ (hne _ hp')]
  exact (hp.trans hp'.symm).map headerItem

end W6Twitter
